import Mathlib

/-!
Verification of the name-parsing and rename-planning engine of bgm-renamer
(src/main.py, with the legacy variant src/extract.py where noted).

The Python code is shallowly embedded over `List Char` / `String`:

* Python regular expressions are translated to hand-rolled matchers that
  follow `re.search` semantics for the exact patterns of src/main.py
  (leftmost starting position wins; greedy quantifiers with the finite
  backtracking the concrete pattern allows).  `\d`, `\s` and `[A-Za-z]`
  are modelled by their ASCII meaning (the repository's patterns are only
  exercised on ASCII digits, ASCII spaces and ASCII letters).
* `str.strip` is `pyStrip`, `str.replace` is `replaceAll` (all
  occurrences, scanning left to right), `str.split("&")` is `splitAmp`,
  `pathlib.Path.suffix` is `pySuffix`.
* Filesystem values are represented by the strings the code actually
  inspects: a directory's final component and the names of the regular
  files it yields, in iteration order.  Logging and `os.link` are out of
  scope; what `link_file_loop` decides per file (destination name, the
  1-based position it prints, whether it logs the duplicate warning and
  which original position that warning cites) is recorded in a `LinkStep`.
-/

namespace BGM

/-- ASCII whitespace as matched by Python's `str.strip` and `\s`. -/
def isPySpace (c : Char) : Bool :=
  c == ' ' || c == '\t' || c == '\n' || c == '\r' || c == '\x0b' || c == '\x0c'

/-- remove trailing whitespace (the right half of Python `str.strip`). -/
def dropTrailingWs (l : List Char) : List Char :=
  (l.reverse.dropWhile isPySpace).reverse

/-- Python `str.strip()`. -/
def pyStrip (l : List Char) : List Char :=
  dropTrailingWs (l.dropWhile isPySpace)

/-- `listStartsWith l pat` is true when `pat` is a prefix of `l`. -/
def listStartsWith : List Char → List Char → Bool
  | _, [] => true
  | [], _ :: _ => false
  | a :: as, b :: bs => a == b && listStartsWith as bs

/-- Python `str.replace(pat, rep)` on char lists: scan left to right, replace
every occurrence, fuelled to make the recursion structural.  The fuel is
spent one unit per step and every step consumes at least one character, so
`l.length` units always suffice. -/
def replaceAllF : Nat → List Char → List Char → List Char → List Char
  | 0, _, _, l => l
  | fuel + 1, pat, rep, l =>
    if !pat.isEmpty && listStartsWith l pat then
      rep ++ replaceAllF fuel pat rep (l.drop pat.length)
    else
      match l with
      | [] => []
      | c :: t => c :: replaceAllF fuel pat rep t

def replaceAll (pat rep l : List Char) : List Char :=
  replaceAllF l.length pat rep l

/-- Split a list at its first `]`: `findClose l = some (sec, rest)` when
`l = sec ++ ']' :: rest` with no `]` inside `sec`. -/
def findClose : List Char → Option (List Char × List Char)
  | [] => none
  | c :: t =>
    if c == ']' then some ([], t)
    else
      match findClose t with
      | some (sec, rest) => some ((c :: sec), rest)
      | none => none

/-- `re.findall(r"\[(.*?)\]", name)`: the contents of the bracketed
sections, left to right (fuelled; each section consumes at least two
characters). -/
def bracketSectionsF : Nat → List Char → List (List Char)
  | 0, _ => []
  | _, [] => []
  | fuel + 1, c :: t =>
    if c == '[' then
      match findClose t with
      | some (sec, rest) => sec :: bracketSectionsF fuel rest
      | none => []
    else
      bracketSectionsF fuel t

def bracketSections (l : List Char) : List (List Char) :=
  bracketSectionsF l.length l

/-- Python `str.split("&")`: always returns at least one piece. -/
def splitAmp : List Char → List (List Char)
  | [] => [[]]
  | c :: t =>
    if c == '&' then [] :: splitAmp t
    else
      match splitAmp t with
      | h :: r => (c :: h) :: r
      | [] => [[c]]

/-- `re.search`: try the matcher at every starting position, leftmost
success wins (the empty position at the end of the string included). -/
def searchAt {α : Type} (f : List Char → Option α) : List Char → Option α
  | [] => f []
  | c :: t =>
    match f (c :: t) with
    | some x => some x
    | none => searchAt f t

/-- Python `int` on the captured digit group. -/
def digitsToNat (ds : List Char) : Nat :=
  ds.foldl (fun a c => 10 * a + (c.toNat - 48)) 0

/-! ### The pattern library of src/main.py (lines 115-130) -/

/-- tail of `EPISODE_RANGE_PATTERN`: `\s*-\s*\d` (the final `\d{1,3}` needs
only its first digit to exist for `re.search` to succeed). -/
def rangeTail (u : List Char) : Bool :=
  match u.dropWhile isPySpace with
  | '-' :: v =>
    match v.dropWhile isPySpace with
    | d :: _ => d.isDigit
    | [] => false
  | _ => false

/-- `EPISODE_RANGE_PATTERN = r"\d{1,2}\s*-\s*\d{1,3}"` matched at one
position: one or two leading digits (both backtracking alternatives). -/
def rangeHere : List Char → Bool
  | d :: rest =>
    d.isDigit &&
      (rangeTail rest ||
        (match rest with
         | d2 :: rest2 => d2.isDigit && rangeTail rest2
         | [] => false))
  | [] => false

/-- `re.search(EPISODE_RANGE_PATTERN, b)` as a Bool. -/
def rangeMatch : List Char → Bool
  | [] => false
  | c :: t => rangeHere (c :: t) || rangeMatch t

/-- the lookahead `(?=[\]\s\.])` of the bracket episode pattern. -/
def epLook : List Char → Bool
  | [] => false
  | c :: _ => c == ']' || isPySpace c || c == '.'

/-- `EPISODE_PATTERN_BRACKET = r"[\s\-\[](\d{2,3})(?=[\]\s\.])"` at one
position.  After the opening class the maximal digit run is taken; the
greedy `{2,3}` with the digit-free lookahead succeeds exactly when the run
has length 2 or 3 and the character after it satisfies the lookahead, and
the capture is then the whole run. -/
def epBracketHere : List Char → Option Nat
  | a :: rest =>
    if isPySpace a || a == '-' || a == '[' then
      let ds := rest.takeWhile Char.isDigit
      if 2 ≤ ds.length && ds.length ≤ 3 && epLook (rest.dropWhile Char.isDigit) then
        some (digitsToNat ds)
      else none
    else none
  | [] => none

/-- `EPISODE_PATTERN_SXX_EXX = r"S\d{1,2}E(\d{1,3})"` at one position: the
digit run after `S` must have length 1 or 2 and be followed by `E` (longer
runs leave a digit where `E` must stand, for every backtracking choice);
the capture is the first up-to-three digits after `E`. -/
def sxxEpHere : List Char → Option Nat
  | 'S' :: rest =>
    let ds := rest.takeWhile Char.isDigit
    if 1 ≤ ds.length && ds.length ≤ 2 then
      match rest.dropWhile Char.isDigit with
      | 'E' :: after =>
        let es := after.takeWhile Char.isDigit
        if 1 ≤ es.length then some (digitsToNat (es.take 3)) else none
      | _ => none
    else none
  | _ => none

/-- `EPISODE_PATTERN_JAPANESE = r"第(\d{1,3})話"` at one position: the digit
run after `第` must have length 1..3 and be followed by `話`. -/
def japEpHere : List Char → Option Nat
  | c :: rest =>
    if c == '第' then
      let ds := rest.takeWhile Char.isDigit
      if 1 ≤ ds.length && ds.length ≤ 3 then
        match rest.dropWhile Char.isDigit with
        | h :: _ => if h == '話' then some (digitsToNat ds) else none
        | [] => none
      else none
    else none
  | [] => none

/-- src/main.py `parse_episode_number` (lines 133-162): bracket form, then
SxxExx form, then Japanese form, first success wins. -/
def parse_episode_number (filename : String) : Option Nat :=
  match searchAt epBracketHere filename.data with
  | some n => some n
  | none =>
    match searchAt sxxEpHere filename.data with
    | some n => some n
    | none => searchAt japEpHere filename.data

/-- `SEASON_PATTERN_SEASON = r"Season\s+(\d{1,2})"` with `re.IGNORECASE` at
one position: six letters spelling "season" case-insensitively, at least
one whitespace, then a digit run of which the first two digits are
captured. -/
def seasonWordHere (s : List Char) : Option Nat :=
  if (s.take 6).map Char.toLower == "season".data then
    let r := s.drop 6
    if 1 ≤ (r.takeWhile isPySpace).length then
      let ds := (r.dropWhile isPySpace).takeWhile Char.isDigit
      if 1 ≤ ds.length then some (digitsToNat (ds.take 2)) else none
    else none
  else none

/-- `SEASON_PATTERN_SXX = r"S(\d{1,2})(?:E\d+)?"` at one position: the
optional tail constrains nothing, so the capture is the first two digits
of the run after a capital `S` whenever that run is nonempty. -/
def seasonSHere : List Char → Option Nat
  | 'S' :: rest =>
    let ds := rest.takeWhile Char.isDigit
    if 1 ≤ ds.length then some (digitsToNat (ds.take 2)) else none
  | _ => none

/-- `SEASON_PATTERN_JAPANESE = r"第(\d{1,2})期"` at one position. -/
def seasonJapHere : List Char → Option Nat
  | c :: rest =>
    if c == '第' then
      let ds := rest.takeWhile Char.isDigit
      if 1 ≤ ds.length && ds.length ≤ 2 then
        match rest.dropWhile Char.isDigit with
        | h :: _ => if h == '期' then some (digitsToNat ds) else none
        | [] => none
      else none
    else none
  | [] => none

/-- src/main.py `parse_season_number` (lines 165-195): "Season N", then
SxxExx, then Japanese, defaulting to 1. -/
def parse_season_number (s : String) : Nat :=
  match searchAt seasonWordHere s.data with
  | some n => n
  | none =>
    match searchAt seasonSHere s.data with
    | some n => n
    | none =>
      match searchAt seasonJapHere s.data with
      | some n => n
      | none => 1

/-! ### Language codes -/

/-- the end-anchored lookahead `(?=\.(ass|srt|vtt|sub|ssa)$)`: the whole
remaining input must be a dot and one of the five extensions. -/
def extOk (u : List Char) : Bool :=
  u == ".ass".data || u == ".srt".data || u == ".vtt".data ||
    u == ".sub".data || u == ".ssa".data

/-- `k` ASCII letters off the front of `u`, or failure. -/
def takeAlpha (k : Nat) (u : List Char) : Option (List Char × List Char) :=
  if (u.take k).length = k && (u.take k).all Char.isAlpha then
    some (u.take k, u.drop k)
  else none

/-- the lookahead applied after the whole captured group. -/
def lookOk (c : List Char) (u : List Char) : Option (List Char) :=
  if extOk u then some c else none

/-- after the captured group: the optional `(?:-[A-Za-z]{4})?`, present
first, then absent, then the lookahead. -/
def tryOptB (c : List Char) (u : List Char) : Option (List Char) :=
  match u with
  | a :: v =>
    if a = '-' then
      match takeAlpha 4 v with
      | some (p, w) =>
        match lookOk (c ++ a :: p) w with
        | some r => some r
        | none => lookOk c u
      | none => lookOk c u
    else lookOk c u
  | [] => lookOk c u

/-- one present-alternative of `(?:-[A-Za-z]{2,4})?` with `k` letters. -/
def tryOptALen (k : Nat) (c : List Char) (a : Char) (v : List Char) :
    Option (List Char) :=
  match takeAlpha k v with
  | some (p, w) => tryOptB (c ++ a :: p) w
  | none => none

/-- the optional `(?:-[A-Za-z]{2,4})?`: present with 4, 3 then 2 letters,
then absent; each alternative continues into `tryOptB`. -/
def tryOptA (c : List Char) (u : List Char) : Option (List Char) :=
  match u with
  | a :: v =>
    if a = '-' then
      match tryOptALen 4 c a v with
      | some r => some r
      | none =>
        match tryOptALen 3 c a v with
        | some r => some r
        | none =>
          match tryOptALen 2 c a v with
          | some r => some r
          | none => tryOptB c u
    else tryOptB c u
  | [] => tryOptB c u

/-- the leading `[A-Za-z]{2,4}` with `k` letters, then the optional parts. -/
def tryP1 (k : Nat) (rest : List Char) : Option (List Char) :=
  match takeAlpha k rest with
  | some (p, u) => tryOptA p u
  | none => none

/-- `LANGUAGE_CODE_PATTERN` (src/main.py lines 126-128) at one position:
a dot, then the captured code, with the greedy group lengths tried in
backtracking order. -/
def langHere : List Char → Option (List Char)
  | a :: rest =>
    if a = '.' then
      match tryP1 4 rest with
      | some r => some r
      | none =>
        match tryP1 3 rest with
        | some r => some r
        | none => tryP1 2 rest
    else none
  | [] => none

/-- src/main.py `extract_language_code` (lines 216-232). -/
def extract_language_code (filename : String) : Option String :=
  (searchAt langHere filename.data).map String.mk

/-! ### The name parser, src/main.py `parse_file_name` (lines 71-112).
The fields `raw` and `root` of the Python dict are path bookkeeping
(`str(original)` and `str(original.parent)`) never consulted by the
claims; the function below is the parser on the final path component
`original.name`, which is all the remaining fields depend on. -/

structure ParsedName where
  series_name : String
  subtitle_groups : List String
  video_format : List String
  episode_range : Option String
  dir : String
  deriving DecidableEq

/-- state of the loop over `bracket_sections[1:]` (lines 92-98). -/
structure Step3State where
  name : List Char
  episode_range : Option (List Char)
  video_format : List (List Char)
  deriving DecidableEq

/-- one iteration of that loop. -/
def step3 (st : Step3State) (b : List Char) : Step3State :=
  if rangeMatch b then
    { name := pyStrip (replaceAll ('[' :: (b ++ [']'])) [] st.name),
      episode_range := some (pyStrip b),
      video_format := st.video_format }
  else
    { name := pyStrip (replaceAll ('[' :: (b ++ [']'])) [] st.name),
      episode_range := st.episode_range,
      video_format := st.video_format ++ [pyStrip b] }

/-- lines 84-89: `subtitle_groups` from the first bracketed section. -/
def pfnGroups (name0 : List Char) : List String :=
  match bracketSections name0 with
  | [] => []
  | first :: _ => (splitAmp first).map (fun g => String.mk (pyStrip g))

/-- lines 84-89: the working name after the first section is removed. -/
def pfnInitName (name0 : List Char) : List Char :=
  match bracketSections name0 with
  | [] => name0
  | first :: _ => pyStrip (replaceAll ('[' :: (first ++ [']'])) [] name0)

/-- lines 91-98: the state after the loop over `bracket_sections[1:]`. -/
def pfnState (name0 : List Char) : Step3State :=
  ((bracketSections name0).drop 1).foldl step3
    { name := pfnInitName name0, episode_range := none, video_format := [] }

def parse_file_name (nameS : String) : ParsedName :=
  { series_name := String.mk (pyStrip
      ((pfnState nameS.data).name.dropWhile (fun c => c == '-' || isPySpace c))),
    subtitle_groups := pfnGroups nameS.data,
    video_format := (pfnState nameS.data).video_format.map String.mk,
    episode_range := (pfnState nameS.data).episode_range.map String.mk,
    dir := nameS }

/-! ### The rename planner, src/main.py `link_file_loop` (lines 235-298).
A directory is represented by its final path component (`src_dir.name`)
and the list of names of the regular files `iterdir` yields, in iteration
order.  `dst_dir` is one fixed directory per call, so two `dst_file`
paths are equal exactly when the computed `new_filename` strings are; the
model therefore tracks the filename strings themselves in
`file_path_list`.  One `LinkStep` records what the loop does for one
processed (non-skipped) file: the computed destination name (also the
target of the `os.link` attempt that follows), the position `num_this` it
logs, and — when the duplicate warning fires — the 1-based index of the
earlier file it cites; `duplicateOf = none` models the ordinary info
line. -/

/-- `pathlib.PurePath.suffix` of a final path component: from the last
dot, provided that dot is neither the leading character nor the last. -/
def pySuffix (l : List Char) : List Char :=
  match l.reverse.findIdx? (fun c => c == '.') with
  | some k =>
    let i := l.length - 1 - k
    if 0 < i ∧ i < l.length - 1 then l.drop i else []
  | none => []

def pySuffixS (f : String) : String := String.mk (pySuffix f.data)

def ignore_exts : List String :=
  [".zip", ".rar", ".7z", ".tar", ".gz", ".xz", ".png", ".txt"]

def ignore_file : List String := [".DS_Store"]

/-- a file the loop does not process: suffix in `ignore_exts` (line 249)
or name in `ignore_file` (line 250). -/
def skipFile (f : String) : Bool :=
  ignore_exts.contains (pySuffixS f) || ignore_file.contains f

/-- Python `f"{n:02d}"` for the non-negative numbers this code formats. -/
def pad2 (n : Nat) : String :=
  if n < 10 then "0" ++ toString n else toString n

/-- lines 264-271: the regular-episode branch of `new_filename`. -/
def episodeFilename (series : String) (season ep : Nat) (lang : Option String)
    (suffix : String) : String :=
  match lang with
  | some lc => series ++ " S" ++ pad2 season ++ "E" ++ pad2 ep ++ "." ++ lc ++ suffix
  | none => series ++ " S" ++ pad2 season ++ "E" ++ pad2 ep ++ suffix

/-- lines 272-279: the special-file branch of `new_filename`, with the
`"NO_NAME"` fallback when the re-parsed name has no video-format tag. -/
def specialFilename (f : String) : String :=
  let sp :=
    match (parse_file_name f).video_format with
    | [] => "NO_NAME"
    | v :: _ => v
  match extract_language_code f with
  | some lc => sp ++ "." ++ lc ++ pySuffixS f
  | none => sp ++ pySuffixS f

/-- the destination filename `link_file_loop` computes for one file
(lines 253-279): the episode branch only when an episode number was found
AND `src_dir.name == series_name`. -/
def new_filename (series : String) (season : Nat) (srcDirName : String)
    (f : String) : String :=
  match parse_episode_number f, srcDirName == series with
  | some ep, true => episodeFilename series season ep (extract_language_code f) (pySuffixS f)
  | _, _ => specialFilename f

structure LinkStep where
  srcName : String
  dstName : String
  position : Nat
  duplicateOf : Option Nat
  deriving DecidableEq

/-- lines 282-288: `num_this`, the membership test against
`file_path_list` and the first index the warning cites. -/
def dupNote (fpl : List String) (d : String) : Option Nat :=
  if d ∈ fpl then some (fpl.indexOf d + 1) else none

/-- the loop of lines 248-298, carrying `file_path_list`. -/
def link_file_loop_go (series : String) (season : Nat) (srcDirName : String)
    (fpl : List String) : List String → List LinkStep
  | [] => []
  | f :: fs =>
    if skipFile f then link_file_loop_go series season srcDirName fpl fs
    else
      let d := new_filename series season srcDirName f
      { srcName := f, dstName := d, position := fpl.length + 1,
        duplicateOf := dupNote fpl d } ::
        link_file_loop_go series season srcDirName (fpl ++ [d]) fs

def link_file_loop (series : String) (season : Nat) (srcDirName : String)
    (files : List String) : List LinkStep :=
  link_file_loop_go series season srcDirName [] files

/-- the files the loop processes, in order. -/
def processed (files : List String) : List String :=
  files.filter (fun f => !skipFile f)

/-- the destination names the loop computes, in order. -/
def dstList (series : String) (season : Nat) (srcDirName : String)
    (files : List String) : List String :=
  (processed files).map (new_filename series season srcDirName)

/-! ### The legacy variant src/extract.py.
Its `parse_file_name` is the identical algorithm (same inline patterns),
so it is shared; its `parse_episode_number` (line 72-74) knows only the
bracket pattern, and its special branch (line 91) indexes
`['video_format'][0]` with no fallback — `extractSpBase f = none` models
the `IndexError` that raises when the list is empty. -/

def parse_episode_number_extract (filename : String) : Option Nat :=
  searchAt epBracketHere filename.data

/-- src/extract.py line 91: the special-branch base name; `none` is the
uncaught `IndexError` on an empty video-format list. -/
def extractSpBase (f : String) : Option String :=
  (parse_file_name f).video_format.head?

/-- src/main.py line 275: the special-branch base name, total. -/
def mainSpBase (f : String) : String :=
  match (parse_file_name f).video_format with
  | [] => "NO_NAME"
  | v :: _ => v

/-! ## Lemmas -/

/-! ### Length and shape of the string utilities -/

lemma length_dropWhile_le (p : Char → Bool) (l : List Char) :
    (l.dropWhile p).length ≤ l.length := by
  induction l with
  | nil => simp
  | cons c t ih =>
    rw [List.dropWhile_cons]
    split
    · exact ih.trans (Nat.le_succ _)
    · simp

lemma length_dropTrailingWs_le (l : List Char) :
    (dropTrailingWs l).length ≤ l.length := by
  unfold dropTrailingWs
  rw [List.length_reverse, ← List.length_reverse l]
  exact length_dropWhile_le _ _

lemma length_pyStrip_le (l : List Char) : (pyStrip l).length ≤ l.length :=
  (length_dropTrailingWs_le _).trans (length_dropWhile_le _ _)

lemma dropWhile_append_self (p : Char → Bool) (l : List Char) :
    ∃ a, l = a ++ l.dropWhile p := ⟨l.takeWhile p, (List.takeWhile_append_dropWhile p l).symm⟩

lemma dropTrailingWs_append_self (l : List Char) :
    ∃ s, l = dropTrailingWs l ++ s := by
  obtain ⟨a, ha⟩ := dropWhile_append_self isPySpace l.reverse
  refine ⟨a.reverse, ?_⟩
  have := congrArg List.reverse ha
  simpa [dropTrailingWs] using this

lemma head?_dropWhile_not (p : Char → Bool) (l : List Char) :
    ∀ c, (l.dropWhile p).head? = some c → p c = false := by
  induction l with
  | nil => intro c h; simp at h
  | cons a t ih =>
    intro c h
    rw [List.dropWhile_cons] at h
    by_cases hp : p a = true
    · rw [if_pos hp] at h
      exact ih c h
    · rw [if_neg hp] at h
      simp only [List.head?_cons, Option.some.injEq] at h
      simp only [Bool.not_eq_true] at hp
      rwa [← h]

lemma dropWhile_of_head_not (p : Char → Bool) (l : List Char) (c : Char)
    (h : l.head? = some c) (hc : p c = false) : l.dropWhile p = l := by
  cases l with
  | nil => rfl
  | cons a t =>
    simp only [List.head?_cons, Option.some.injEq] at h
    subst h
    rw [List.dropWhile_cons, hc]
    rfl

lemma dropWhile_dropWhile (p : Char → Bool) (l : List Char) :
    (l.dropWhile p).dropWhile p = l.dropWhile p := by
  cases h : l.dropWhile p with
  | nil => rfl
  | cons c t =>
    have hc : p c = false := head?_dropWhile_not p l c (by rw [h]; rfl)
    rw [List.dropWhile_cons, hc]
    simp

lemma dropTrailingWs_idem (l : List Char) :
    dropTrailingWs (dropTrailingWs l) = dropTrailingWs l := by
  unfold dropTrailingWs
  rw [List.reverse_reverse, dropWhile_dropWhile]

/-! ### `listStartsWith` and `replaceAll` -/

lemma listStartsWith_iff (l pat : List Char) :
    listStartsWith l pat = true ↔ ∃ rest, l = pat ++ rest := by
  induction pat generalizing l with
  | nil => simp [listStartsWith]
  | cons b bs ih =>
    cases l with
    | nil => simp [listStartsWith]
    | cons a as =>
      rw [listStartsWith]
      simp only [Bool.and_eq_true, beq_iff_eq, ih]
      constructor
      · rintro ⟨rfl, rest, rfl⟩; exact ⟨rest, rfl⟩
      · rintro ⟨rest, h⟩
        rw [List.cons_append] at h
        obtain ⟨h1, h2⟩ := List.cons.injEq .. ▸ h
        exact ⟨h1, rest, h2⟩

lemma replaceAllF_zero (pat rep l : List Char) : replaceAllF 0 pat rep l = l := rfl

lemma replaceAllF_succ (n : Nat) (pat rep l : List Char) :
    replaceAllF (n + 1) pat rep l =
      if !pat.isEmpty && listStartsWith l pat then
        rep ++ replaceAllF n pat rep (l.drop pat.length)
      else
        match l with
        | [] => []
        | c :: t => c :: replaceAllF n pat rep t := rfl

lemma replaceAllF_length_le (fuel : Nat) (pat : List Char) :
    ∀ l, (replaceAllF fuel pat [] l).length ≤ l.length := by
  induction fuel with
  | zero => intro l; rw [replaceAllF_zero]
  | succ n ih =>
    intro l
    rw [replaceAllF_succ]
    split
    · simp only [List.nil_append]
      exact (ih _).trans (by simp)
    · cases l with
      | nil => simp
      | cons c t => simpa using ih t

lemma replaceAll_length_le (pat l : List Char) :
    (replaceAll pat [] l).length ≤ l.length :=
  replaceAllF_length_le _ _ _

lemma replaceAllF_length_lt (fuel : Nat) (pat : List Char) :
    ∀ l, l.length ≤ fuel → pat ≠ [] → (∃ pre post, l = pre ++ pat ++ post) →
      (replaceAllF fuel pat [] l).length < l.length := by
  induction fuel with
  | zero =>
    rintro l hl hp ⟨pre, post, rfl⟩
    simp at hl
    exact absurd hl.2.1 hp
  | succ n ih =>
    rintro l hl hp ⟨pre, post, hocc⟩
    rw [replaceAllF_succ]
    split
    · rename_i hcond
      simp only [List.nil_append]
      have hplen : 1 ≤ pat.length := by
        cases pat with
        | nil => exact absurd rfl hp
        | cons a b => simp
      have hlen : pat.length ≤ l.length := by
        have := (Bool.and_eq_true _ _).mp hcond
        obtain ⟨rest, hrest⟩ := (listStartsWith_iff l pat).mp this.2
        subst hrest; simp
      calc (replaceAllF n pat [] (l.drop pat.length)).length
          ≤ (l.drop pat.length).length := replaceAllF_length_le _ _ _
        _ = l.length - pat.length := by simp
        _ < l.length := by omega
    · rename_i hcond
      cases pre with
      | nil =>
        exfalso
        simp only [List.nil_append] at hocc
        have hsw : listStartsWith l pat = true :=
          (listStartsWith_iff l pat).mpr ⟨post, hocc⟩
        have hne : pat.isEmpty = false := by
          cases pat with
          | nil => exact absurd rfl hp
          | cons a b => rfl
        rw [hne, hsw] at hcond
        simp at hcond
      | cons c pre' =>
        cases l with
        | nil => simp at hocc
        | cons a t =>
          simp only [List.cons_append] at hocc
          obtain ⟨rfl, hocc'⟩ := List.cons.injEq .. ▸ hocc
          have ht : (replaceAllF n pat [] t).length < t.length := by
            apply ih t (by simp at hl; omega) hp
            exact ⟨pre', post, hocc'⟩
          simpa using Nat.succ_lt_succ ht

lemma replaceAll_length_lt (pat l : List Char) (hp : pat ≠ [])
    (hocc : ∃ pre post, l = pre ++ pat ++ post) :
    (replaceAll pat [] l).length < l.length :=
  replaceAllF_length_lt _ _ _ le_rfl hp hocc

/-! ### `findClose` and `bracketSections` -/

lemma findClose_some (l : List Char) :
    ∀ sec rest, findClose l = some (sec, rest) → l = sec ++ ']' :: rest := by
  induction l with
  | nil => intro sec rest h; simp [findClose] at h
  | cons c t ih =>
    intro sec rest h
    rw [findClose] at h
    by_cases hc : c = ']'
    · subst hc
      simp at h
      obtain ⟨rfl, rfl⟩ := h
      rfl
    · rw [if_neg (by simpa using hc)] at h
      cases hfc : findClose t with
      | none => rw [hfc] at h; simp at h
      | some pr =>
        obtain ⟨sec', rest'⟩ := pr
        rw [hfc] at h
        simp at h
        obtain ⟨h1, h2⟩ := h
        subst h2
        rw [← h1]
        simpa using ih sec' rest' hfc

lemma findClose_none_of_no_close (l : List Char) (h : ']' ∉ l) :
    findClose l = none := by
  induction l with
  | nil => rfl
  | cons c t ih =>
    have hc : ¬(c == ']') = true := by
      simp only [beq_iff_eq]
      intro hcc
      exact h (hcc ▸ List.mem_cons_self c t)
    rw [findClose, if_neg hc, ih (fun hm => h (List.mem_cons_of_mem _ hm))]

lemma mem_of_findClose_some (l : List Char) (sec rest : List Char)
    (h : findClose l = some (sec, rest)) : ']' ∈ l := by
  rw [findClose_some l sec rest h]
  simp

lemma no_close_of_findClose_none (l : List Char) : findClose l = none → ']' ∉ l := by
  induction l with
  | nil => intro _ hm; simp at hm
  | cons c t ih =>
    intro h hmem
    rw [findClose] at h
    by_cases hc : (c == ']') = true
    · rw [if_pos hc] at h; simp at h
    · rw [if_neg hc] at h
      cases hft : findClose t with
      | some pr =>
        obtain ⟨sec, rest⟩ := pr
        rw [hft] at h
        simp at h
      | none =>
        rcases List.mem_cons.mp hmem with hm | hm
        · exact hc (by simp [hm.symm])
        · exact ih hft hm

lemma findClose_none_iff (l : List Char) :
    findClose l = none ↔ ']' ∉ l :=
  ⟨no_close_of_findClose_none l, findClose_none_of_no_close l⟩

lemma findClose_some_length (l : List Char) (sec rest : List Char)
    (h : findClose l = some (sec, rest)) : rest.length < l.length := by
  have := findClose_some l sec rest h
  subst this
  simp
  omega

lemma bracketSectionsF_congr (f : Nat) :
    ∀ g l, l.length ≤ f → l.length ≤ g → bracketSectionsF f l = bracketSectionsF g l := by
  induction f with
  | zero =>
    intro g l hf _
    have : l = [] := by
      cases l with
      | nil => rfl
      | cons c t => simp at hf
    subst this
    cases g <;> rfl
  | succ n ih =>
    intro g l hf hg
    cases l with
    | nil => cases g <;> rfl
    | cons c t =>
      cases g with
      | zero => simp at hg
      | succ m =>
        rw [bracketSectionsF, bracketSectionsF]
        by_cases hc : (c == '[') = true
        · rw [hc]
          simp only [if_true]
          cases hfc : findClose t with
          | none => rfl
          | some pr =>
            obtain ⟨sec, rest⟩ := pr
            have hrl : rest.length < t.length := findClose_some_length t sec rest hfc
            simp only []
            rw [ih m rest (by simp at hf; omega) (by simp at hg; omega)]
        · rw [Bool.not_eq_true] at hc
          rw [hc]
          simp only [if_false, Bool.false_eq_true]
          exact ih m t (by simp at hf; omega) (by simp at hg; omega)

lemma bracketSections_cons_ne (c : Char) (t : List Char) (hc : (c == '[') = false) :
    bracketSections (c :: t) = bracketSections t := by
  show bracketSectionsF (t.length + 1) (c :: t) = bracketSectionsF t.length t
  rw [bracketSectionsF, hc]
  simp

lemma bracketSections_open_some (t sec rest : List Char)
    (hfc : findClose t = some (sec, rest)) :
    bracketSections ('[' :: t) = sec :: bracketSections rest := by
  show bracketSectionsF (t.length + 1) ('[' :: t) = _
  rw [bracketSectionsF]
  simp only [beq_self_eq_true, if_true]
  rw [hfc]
  have hrl : rest.length < t.length := findClose_some_length t sec rest hfc
  simp only []
  rw [bracketSectionsF_congr t.length rest.length rest (by omega) le_rfl]
  rfl

lemma bracketSections_open_none (t : List Char) (hfc : findClose t = none) :
    bracketSections ('[' :: t) = [] := by
  show bracketSectionsF (t.length + 1) ('[' :: t) = []
  rw [bracketSectionsF]
  simp only [beq_self_eq_true, if_true]
  rw [hfc]

lemma bracketSections_head_occ (l : List Char) :
    ∀ first rest, bracketSections l = first :: rest →
      ∃ pre post, l = pre ++ ('[' :: (first ++ [']'])) ++ post := by
  induction l with
  | nil => intro first rest h; simp [bracketSections, bracketSectionsF] at h
  | cons c t ih =>
    intro first rest h
    by_cases hc : (c == '[') = true
    · have hco : c = '[' := by simpa using hc
      subst hco
      cases hfc : findClose t with
      | none =>
        rw [bracketSections_open_none t hfc] at h
        simp at h
      | some pr =>
        obtain ⟨sec, r⟩ := pr
        rw [bracketSections_open_some t sec r hfc] at h
        have hsec : sec = first := (List.cons.injEq .. ▸ h).1
        refine ⟨[], r, ?_⟩
        rw [findClose_some t sec r hfc, hsec]
        simp
    · rw [Bool.not_eq_true] at hc
      rw [bracketSections_cons_ne c t hc] at h
      obtain ⟨pre, post, hpp⟩ := ih first rest h
      exact ⟨c :: pre, post, by rw [hpp]; rfl⟩

lemma bracketSections_nil_of_no_close (l : List Char) (h : ']' ∉ l) :
    bracketSections l = [] := by
  induction l with
  | nil => rfl
  | cons c t ih =>
    have hct : ']' ∉ t := fun hm => h (List.mem_cons_of_mem _ hm)
    by_cases hc : (c == '[') = true
    · have hco : c = '[' := by simpa using hc
      subst hco
      exact bracketSections_open_none t (findClose_none_of_no_close t hct)
    · rw [Bool.not_eq_true] at hc
      rw [bracketSections_cons_ne c t hc]
      exact ih hct

lemma bracketSections_nil_cons (c : Char) (t : List Char)
    (h : bracketSections (c :: t) = []) : bracketSections t = [] := by
  by_cases hc : (c == '[') = true
  · have hco : c = '[' := by simpa using hc
    subst hco
    cases hfc : findClose t with
    | some pr =>
      obtain ⟨sec, rest⟩ := pr
      rw [bracketSections_open_some t sec rest hfc] at h
      simp at h
    | none => exact bracketSections_nil_of_no_close t (no_close_of_findClose_none t hfc)
  · rw [Bool.not_eq_true] at hc
    rwa [bracketSections_cons_ne c t hc] at h

lemma bracketSections_nil_append_right (a b : List Char)
    (h : bracketSections (a ++ b) = []) : bracketSections b = [] := by
  induction a with
  | nil => simpa using h
  | cons c a' ih => exact ih (bracketSections_nil_cons c (a' ++ b) h)

lemma bracketSections_nil_append_left (a b : List Char)
    (h : bracketSections (a ++ b) = []) : bracketSections a = [] := by
  induction a with
  | nil => rfl
  | cons c a' ih =>
    by_cases hc : (c == '[') = true
    · have hco : c = '[' := by simpa using hc
      subst hco
      cases hfc : findClose (a' ++ b) with
      | some pr =>
        obtain ⟨sec, rest⟩ := pr
        rw [List.cons_append, bracketSections_open_some _ sec rest hfc] at h
        simp at h
      | none =>
        have hnc : ']' ∉ a' ++ b := no_close_of_findClose_none _ hfc
        have hna : ']' ∉ a' := fun hm => hnc (List.mem_append_left _ hm)
        exact bracketSections_open_none a' (findClose_none_of_no_close a' hna)
    · rw [Bool.not_eq_true] at hc
      rw [List.cons_append, bracketSections_cons_ne c _ hc] at h
      rw [bracketSections_cons_ne c _ hc]
      exact ih h

/-! ### The loop over `bracket_sections[1:]` -/

lemma foldl_step3_er (bs : List (List Char)) :
    ∀ st, (bs.foldl step3 st).episode_range =
      ((bs.reverse.find? rangeMatch).map pyStrip).or st.episode_range := by
  induction bs with
  | nil => intro st; simp
  | cons b t ih =>
    intro st
    rw [List.foldl_cons, ih, List.reverse_cons, List.find?_append]
    cases h : t.reverse.find? rangeMatch with
    | some x => simp
    | none =>
      by_cases hb : rangeMatch b = true
      · simp [step3, hb, List.find?_cons]
      · simp only [Bool.not_eq_true] at hb
        simp [step3, hb, List.find?_cons]

lemma foldl_step3_vf (bs : List (List Char)) :
    ∀ st, (bs.foldl step3 st).video_format =
      st.video_format ++ (bs.filter (fun b => !rangeMatch b)).map pyStrip := by
  induction bs with
  | nil => intro st; simp
  | cons b t ih =>
    intro st
    rw [List.foldl_cons, ih, List.filter_cons]
    by_cases hb : rangeMatch b = true
    · simp [step3, hb]
    · simp only [Bool.not_eq_true] at hb
      simp [step3, hb]

lemma foldl_step3_name_le (bs : List (List Char)) :
    ∀ st, ((bs.foldl step3 st).name).length ≤ st.name.length := by
  induction bs with
  | nil => intro st; simp
  | cons b t ih =>
    intro st
    rw [List.foldl_cons]
    refine (ih (step3 st b)).trans ?_
    have hstep : (step3 st b).name = pyStrip (replaceAll ('[' :: (b ++ [']'])) [] st.name) := by
      by_cases hb : rangeMatch b = true
      · simp [step3, hb]
      · simp only [Bool.not_eq_true] at hb
        simp [step3, hb]
    rw [hstep]
    exact (length_pyStrip_le _).trans (replaceAll_length_le _ _)

/-! ### The link loop -/

lemma mem_take_iff {α : Type} (a : α) (l : List α) (n : Nat) :
    a ∈ l.take n ↔ ∃ m, m < n ∧ l[m]? = some a := by
  rw [List.mem_iff_getElem?]
  constructor
  · rintro ⟨m, hm⟩
    rw [List.getElem?_take] at hm
    by_cases h : m < n
    · rw [if_pos h] at hm; exact ⟨m, h, hm⟩
    · rw [if_neg h] at hm; simp at hm
  · rintro ⟨m, hmn, hm⟩
    exact ⟨m, by rw [List.getElem?_take, if_pos hmn]; exact hm⟩

lemma indexOf_first (l : List String) (a : String) :
    ∀ i, l[i]? = some a → (∀ m, m < i → l[m]? ≠ some a) → l.indexOf a = i := by
  induction l with
  | nil => intro i h _; simp at h
  | cons x t ih =>
    intro i h hfirst
    cases i with
    | zero =>
      simp at h
      rw [h]
      exact List.indexOf_cons_self a t
    | succ i =>
      have hx : x ≠ a := by
        intro hxa
        exact hfirst 0 (Nat.succ_pos i) (by simp [hxa])
      rw [List.indexOf_cons_ne t hx]
      have := ih i (by simpa using h) (fun m hm => by
        have := hfirst (m + 1) (Nat.succ_lt_succ hm)
        simpa using this)
      omega

lemma processed_cons_skip (f : String) (fs : List String) (h : skipFile f = true) :
    processed (f :: fs) = processed fs := by
  simp [processed, List.filter_cons, h]

lemma processed_cons_keep (f : String) (fs : List String) (h : skipFile f = false) :
    processed (f :: fs) = f :: processed fs := by
  simp [processed, List.filter_cons, h]

lemma dstList_cons_skip (series : String) (season : Nat) (srcDirName : String)
    (f : String) (fs : List String) (h : skipFile f = true) :
    dstList series season srcDirName (f :: fs) = dstList series season srcDirName fs := by
  simp [dstList, processed_cons_skip f fs h]

lemma dstList_cons_keep (series : String) (season : Nat) (srcDirName : String)
    (f : String) (fs : List String) (h : skipFile f = false) :
    dstList series season srcDirName (f :: fs) =
      new_filename series season srcDirName f :: dstList series season srcDirName fs := by
  simp [dstList, processed_cons_keep f fs h]

lemma link_go_getElem (series : String) (season : Nat) (srcDirName : String) :
    ∀ (files fpl : List String) (k : Nat),
      (link_file_loop_go series season srcDirName fpl files)[k]? =
        ((processed files)[k]?).map (fun f =>
          { srcName := f,
            dstName := new_filename series season srcDirName f,
            position := fpl.length + k + 1,
            duplicateOf :=
              dupNote (fpl ++ (dstList series season srcDirName files).take k)
                (new_filename series season srcDirName f) }) := by
  intro files
  induction files with
  | nil => intro fpl k; simp [link_file_loop_go, processed]
  | cons f fs ih =>
    intro fpl k
    by_cases hskip : skipFile f = true
    · rw [link_file_loop_go, if_pos hskip, processed_cons_skip f fs hskip,
        dstList_cons_skip series season srcDirName f fs hskip]
      exact ih fpl k
    · rw [Bool.not_eq_true] at hskip
      rw [link_file_loop_go, if_neg (by simp [hskip]),
        processed_cons_keep f fs hskip, dstList_cons_keep series season srcDirName f fs hskip]
      cases k with
      | zero => simp
      | succ k =>
        rw [List.getElem?_cons_succ, List.getElem?_cons_succ,
          ih (fpl ++ [new_filename series season srcDirName f]) k]
        have harith : (fpl ++ [new_filename series season srcDirName f]).length + k + 1 =
            fpl.length + (k + 1) + 1 := by simp; omega
        have hlist : (fpl ++ [new_filename series season srcDirName f]) ++
              (dstList series season srcDirName fs).take k =
            fpl ++ (new_filename series season srcDirName f ::
              dstList series season srcDirName fs).take (k + 1) := by
          rw [List.take_succ_cons, List.append_assoc]
          rfl
        simp only [harith, hlist]

/-! ### Odds and ends for the remaining claims -/

lemma splitAmp_ne_nil (l : List Char) : splitAmp l ≠ [] := by
  cases l with
  | nil => simp [splitAmp]
  | cons c t =>
    rw [splitAmp]
    by_cases hc : (c == '&') = true
    · rw [if_pos hc]; simp
    · rw [if_neg hc]
      cases h : splitAmp t with
      | nil => simp
      | cons a r => simp

lemma mem_link_go_dst (series : String) (season : Nat) (srcDirName : String) :
    ∀ (files fpl : List String) (st : LinkStep),
      st ∈ link_file_loop_go series season srcDirName fpl files →
      st.dstName = new_filename series season srcDirName st.srcName := by
  intro files
  induction files with
  | nil => intro fpl st h; simp [link_file_loop_go] at h
  | cons f fs ih =>
    intro fpl st h
    rw [link_file_loop_go] at h
    by_cases hs : skipFile f = true
    · rw [if_pos hs] at h
      exact ih fpl st h
    · rw [Bool.not_eq_true] at hs
      rw [if_neg (by simp [hs])] at h
      rcases List.mem_cons.mp h with h1 | h1
      · rw [h1]
      · exact ih _ st h1

lemma searchAt_spec {α : Type} (f : List Char → Option α) :
    ∀ (l : List Char) (x : α), searchAt f l = some x →
      ∃ pre suf, l = pre ++ suf ∧ f suf = some x := by
  intro l
  induction l with
  | nil => intro x h; exact ⟨[], [], rfl, h⟩
  | cons c t ih =>
    intro x h
    rw [searchAt] at h
    cases hf : f (c :: t) with
    | some y =>
      rw [hf] at h
      exact ⟨[], c :: t, rfl, by rw [hf]; exact h⟩
    | none =>
      rw [hf] at h
      obtain ⟨pre, suf, hl, hsuf⟩ := ih x h
      exact ⟨c :: pre, suf, by rw [hl]; rfl, hsuf⟩

lemma takeAlpha_spec (k : Nat) (u : List Char) (p w : List Char)
    (h : takeAlpha k u = some (p, w)) : u = p ++ w := by
  rw [takeAlpha] at h
  split at h
  · simp at h
    rw [← h.1, ← h.2]
    simp
  · simp at h

lemma extOk_spec (u : List Char) (h : extOk u = true) :
    ∃ ext : String, ext ∈ (["ass", "srt", "vtt", "sub", "ssa"] : List String) ∧
      u = '.' :: ext.data := by
  rw [extOk] at h
  simp only [Bool.or_eq_true, beq_iff_eq] at h
  rcases h with ((((h | h) | h) | h) | h) <;> subst h
  · exact ⟨"ass", by simp, rfl⟩
  · exact ⟨"srt", by simp, rfl⟩
  · exact ⟨"vtt", by simp, rfl⟩
  · exact ⟨"sub", by simp, rfl⟩
  · exact ⟨"ssa", by simp, rfl⟩

lemma lookOk_spec (c u : List Char) (c' : List Char) (h : lookOk c u = some c') :
    c' = c ∧ extOk u = true := by
  rw [lookOk] at h
  split at h
  · simp at h
    exact ⟨h.symm, by assumption⟩
  · simp at h

lemma tryOptB_spec (c u : List Char) (c' : List Char) (h : tryOptB c u = some c') :
    ∃ t rem, c' = c ++ t ∧ u = t ++ rem ∧ extOk rem = true := by
  cases u with
  | nil =>
    rw [tryOptB] at h
    obtain ⟨rfl, hx⟩ := lookOk_spec c [] c' h
    exact ⟨[], [], by simp, rfl, hx⟩
  | cons a v =>
    rw [tryOptB] at h
    by_cases ha : a = '-'
    · rw [if_pos ha] at h
      split at h
      next p w hta =>
        split at h
        next r hlk =>
          simp only [Option.some.injEq] at h
          obtain ⟨rfl, hx⟩ := lookOk_spec _ w r hlk
          refine ⟨a :: p, w, h ▸ rfl, ?_, hx⟩
          rw [takeAlpha_spec 4 v p w hta]
          rfl
        next hlk =>
          obtain ⟨rfl, hx⟩ := lookOk_spec c (a :: v) c' h
          exact ⟨[], a :: v, by simp, rfl, hx⟩
      next hta =>
        obtain ⟨rfl, hx⟩ := lookOk_spec c (a :: v) c' h
        exact ⟨[], a :: v, by simp, rfl, hx⟩
    · rw [if_neg ha] at h
      obtain ⟨rfl, hx⟩ := lookOk_spec c (a :: v) c' h
      exact ⟨[], a :: v, by simp, rfl, hx⟩

lemma tryOptALen_spec (k : Nat) (c : List Char) (a : Char) (v : List Char)
    (c' : List Char) (h : tryOptALen k c a v = some c') :
    ∃ t rem, c' = c ++ t ∧ a :: v = t ++ rem ∧ extOk rem = true := by
  rw [tryOptALen] at h
  split at h
  next p w hta =>
    obtain ⟨t, rem, hc, hw, hx⟩ := tryOptB_spec (c ++ a :: p) w c' h
    refine ⟨a :: p ++ t, rem, by rw [hc]; simp, ?_, hx⟩
    rw [takeAlpha_spec k v p w hta, hw]
    simp
  next hta => simp at h

lemma tryOptA_spec (c u : List Char) (c' : List Char) (h : tryOptA c u = some c') :
    ∃ t rem, c' = c ++ t ∧ u = t ++ rem ∧ extOk rem = true := by
  cases u with
  | nil => exact tryOptB_spec c [] c' (by rw [tryOptA] at h; exact h)
  | cons a v =>
    rw [tryOptA] at h
    by_cases ha : a = '-'
    · rw [if_pos ha] at h
      split at h
      next r h4 =>
        simp only [Option.some.injEq] at h
        exact h ▸ tryOptALen_spec 4 c a v r h4
      next h4 =>
        split at h
        next r h3 =>
          simp only [Option.some.injEq] at h
          exact h ▸ tryOptALen_spec 3 c a v r h3
        next h3 =>
          split at h
          next r h2 =>
            simp only [Option.some.injEq] at h
            exact h ▸ tryOptALen_spec 2 c a v r h2
          next h2 =>
            exact tryOptB_spec c (a :: v) c' h
    · rw [if_neg ha] at h
      exact tryOptB_spec c (a :: v) c' h

lemma tryP1_spec (k : Nat) (rest : List Char) (c : List Char)
    (h : tryP1 k rest = some c) :
    ∃ rem, rest = c ++ rem ∧ extOk rem = true := by
  rw [tryP1] at h
  split at h
  next p u hta =>
    obtain ⟨t, rem, hc, hu, hx⟩ := tryOptA_spec p u c h
    refine ⟨rem, ?_, hx⟩
    rw [takeAlpha_spec k rest p u hta, hu, hc]
    simp
  next hta => simp at h

lemma langHere_spec (s : List Char) (c : List Char) (h : langHere s = some c) :
    ∃ rem, s = '.' :: (c ++ rem) ∧ extOk rem = true := by
  cases s with
  | nil => rw [langHere] at h; simp at h
  | cons a rest =>
    rw [langHere] at h
    by_cases ha : a = '.'
    · rw [if_pos ha] at h
      subst ha
      have hcase : ∃ k, tryP1 k rest = some c := by
        split at h
        next r h4 =>
          simp only [Option.some.injEq] at h
          exact ⟨4, h ▸ h4⟩
        next h4 =>
          split at h
          next r h3 =>
            simp only [Option.some.injEq] at h
            exact ⟨3, h ▸ h3⟩
          next h3 =>
            exact ⟨2, h⟩
      obtain ⟨k, hk⟩ := hcase
      obtain ⟨rem, hrest, hx⟩ := tryP1_spec k rest c hk
      exact ⟨rem, by rw [hrest], hx⟩
    · rw [if_neg ha] at h
      simp at h

/-! ## The claims -/

/-- the state of the section loop when the name has no bracketed section:
nothing runs, the working name is the whole input. -/
lemma pfnState_no_brackets (l : List Char) (h : bracketSections l = []) :
    pfnState l = { name := l, episode_range := none, video_format := [] } := by
  unfold pfnState pfnInitName
  rw [h]
  rfl

/-- C1: when exactly two processed files of one `link_file_loop` run compute
the same destination name `d` (positions `i < j` in the run's order), the
run logs the ordinary info line for the first (no warning), logs exactly one
duplicate warning — at the second file, citing the 1-based position `i + 1`
of the original and carrying the second file's own 1-based position
`j + 1` — renames neither file (both steps keep the computed name `d`), and
both steps proceed to the link attempt at that same destination; no other
step of the run involves `d` at all. -/
theorem c1_collision_one_warning
    (series : String) (season : Nat) (srcDirName : String) (files : List String)
    (i j : Nat) (d : String) (hij : i < j)
    (hi : (dstList series season srcDirName files)[i]? = some d)
    (hj : (dstList series season srcDirName files)[j]? = some d)
    (honly : ∀ k, k ≠ i → k ≠ j → (dstList series season srcDirName files)[k]? ≠ some d) :
    (∃ fi, (link_file_loop series season srcDirName files)[i]? =
      some { srcName := fi, dstName := d, position := i + 1, duplicateOf := none }) ∧
    (∃ fj, (link_file_loop series season srcDirName files)[j]? =
      some { srcName := fj, dstName := d, position := j + 1, duplicateOf := some (i + 1) }) ∧
    ∀ k st, k ≠ i → k ≠ j →
      (link_file_loop series season srcDirName files)[k]? = some st → st.dstName ≠ d := by
  have hclosed : ∀ k, (link_file_loop series season srcDirName files)[k]? =
      ((processed files)[k]?).map (fun f =>
        ({ srcName := f, dstName := new_filename series season srcDirName f,
           position := k + 1,
           duplicateOf := dupNote ((dstList series season srcDirName files).take k)
             (new_filename series season srcDirName f) } : LinkStep)) := by
    intro k
    have h := link_go_getElem series season srcDirName files [] k
    simpa [link_file_loop] using h
  have hmap : ∀ k : Nat, (dstList series season srcDirName files)[k]? =
      ((processed files)[k]?).map (new_filename series season srcDirName) := by
    intro k
    simp [dstList, List.getElem?_map]
  obtain ⟨fi, hfi, hdfi⟩ : ∃ f, (processed files)[i]? = some f ∧
      new_filename series season srcDirName f = d := by
    have h := hi
    rw [hmap i] at h
    cases hp : (processed files)[i]? with
    | none => rw [hp] at h; simp at h
    | some f =>
      rw [hp] at h
      simp at h
      exact ⟨f, rfl, h⟩
  obtain ⟨fj, hfj, hdfj⟩ : ∃ f, (processed files)[j]? = some f ∧
      new_filename series season srcDirName f = d := by
    have h := hj
    rw [hmap j] at h
    cases hp : (processed files)[j]? with
    | none => rw [hp] at h; simp at h
    | some f =>
      rw [hp] at h
      simp at h
      exact ⟨f, rfl, h⟩
  refine ⟨⟨fi, ?_⟩, ⟨fj, ?_⟩, ?_⟩
  · rw [hclosed i, hfi]
    have hnot : d ∉ (dstList series season srcDirName files).take i := by
      intro hmem
      obtain ⟨m, hm, hget⟩ := (mem_take_iff d _ i).mp hmem
      exact honly m (Nat.ne_of_lt hm) (Nat.ne_of_lt (hm.trans hij)) hget
    simp [dupNote, hdfi, hnot]
  · rw [hclosed j, hfj]
    have hmem : d ∈ (dstList series season srcDirName files).take j :=
      (mem_take_iff d _ j).mpr ⟨i, hij, hi⟩
    have hidx : ((dstList series season srcDirName files).take j).indexOf d = i := by
      apply indexOf_first
      · rw [List.getElem?_take, if_pos hij]
        exact hi
      · intro m hm
        rw [List.getElem?_take, if_pos (hm.trans hij)]
        exact honly m (Nat.ne_of_lt hm) (Nat.ne_of_lt (hm.trans hij))
    simp [dupNote, hdfj, hmem, hidx]
  · intro k st hk hkj hst
    rw [hclosed k] at hst
    cases hp : (processed files)[k]? with
    | none => rw [hp] at hst; simp at hst
    | some f =>
      rw [hp] at hst
      simp only [Option.map_some', Option.some.injEq] at hst
      intro hd
      apply honly k hk hkj
      rw [hmap k, hp]
      simp only [Option.map_some', Option.some.injEq]
      rw [← hst] at hd
      exact hd

/-- C1 witness: two special files that both classify to `BD.mkv` in one run:
the first gets the plain info line, the second the single duplicate warning
citing position 1, and both keep destination `BD.mkv`. -/
theorem c1_collision_one_warning_witness :
    (∃ fi, (link_file_loop "Show" 1 "Src" ["[A] X [BD].mkv", "[B] Y [BD].mkv"])[0]? =
      some { srcName := fi, dstName := "BD.mkv", position := 0 + 1, duplicateOf := none }) ∧
    (∃ fj, (link_file_loop "Show" 1 "Src" ["[A] X [BD].mkv", "[B] Y [BD].mkv"])[1]? =
      some { srcName := fj, dstName := "BD.mkv", position := 1 + 1, duplicateOf := some (0 + 1) }) ∧
    ∀ k st, k ≠ 0 → k ≠ 1 →
      (link_file_loop "Show" 1 "Src" ["[A] X [BD].mkv", "[B] Y [BD].mkv"])[k]? = some st →
        st.dstName ≠ "BD.mkv" :=
  c1_collision_one_warning "Show" 1 "Src" ["[A] X [BD].mkv", "[B] Y [BD].mkv"] 0 1 "BD.mkv"
    (by decide) (by decide) (by decide)
    (by
      have hds : dstList "Show" 1 "Src" ["[A] X [BD].mkv", "[B] Y [BD].mkv"] =
          ["BD.mkv", "BD.mkv"] := by decide
      intro k h0 h1
      rw [hds]
      match k with
      | 0 => exact absurd rfl h0
      | 1 => exact absurd rfl h1
      | n + 2 => simp)

/-- C2 counterexample: in `"[G] T [01-12][02-13]"` both sections after the
first match the episode-range pattern; the recorded `episode_range` is the
LAST match `"02-13"`, not the first `"01-12"`, and the other matching
section is not appended to `video_format` (which stays empty). -/
theorem c2_counterexample :
    (parse_file_name "[G] T [01-12][02-13]").episode_range ≠ some "01-12" ∧
    (parse_file_name "[G] T [01-12][02-13]").episode_range = some "02-13" ∧
    (parse_file_name "[G] T [01-12][02-13]").video_format = [] := by
  decide

/-- C2 (amended): at most one `episode_range` is recorded and it is the
last bracket section after the first that matches the range pattern (each
later match overwrites the earlier one); bracket sections matching the
range pattern are never appended to `video_format_tags`; every
non-matching subsequent section is appended, in left-to-right order. -/
theorem c2_last_range_wins_others_tagged (nameS : String) :
    (parse_file_name nameS).episode_range =
      (((bracketSections nameS.data).drop 1).reverse.find? rangeMatch).map
        (fun b => String.mk (pyStrip b)) ∧
    (parse_file_name nameS).video_format =
      (((bracketSections nameS.data).drop 1).filter (fun b => !rangeMatch b)).map
        (fun b => String.mk (pyStrip b)) := by
  constructor
  · show ((pfnState nameS.data).episode_range).map String.mk = _
    unfold pfnState
    rw [foldl_step3_er]
    cases hf : ((bracketSections nameS.data).drop 1).reverse.find? rangeMatch <;> simp
  · show ((pfnState nameS.data).video_format).map String.mk = _
    unfold pfnState
    rw [foldl_step3_vf]
    simp [List.map_map, Function.comp]

/-- C3: `parse_episode_number` tries the bracket-form pattern, then the
SxxExx-form pattern, then the Japanese-form pattern, in that fixed order,
returns the first success and `none` when all fail; with the spec's four
concrete examples. -/
theorem c3_episode_priority :
    (∀ (s : String) (n : Nat), searchAt epBracketHere s.data = some n →
      parse_episode_number s = some n) ∧
    (∀ (s : String) (n : Nat), searchAt epBracketHere s.data = none →
      searchAt sxxEpHere s.data = some n → parse_episode_number s = some n) ∧
    (∀ s : String, searchAt epBracketHere s.data = none →
      searchAt sxxEpHere s.data = none →
      parse_episode_number s = searchAt japEpHere s.data) ∧
    parse_episode_number "Tower.of.God.S02E23.mkv" = some 23 ∧
    parse_episode_number "[Group] Show [08].mkv" = some 8 ∧
    parse_episode_number "[Snow-Raws] ばらかもん 第08話.mkv" = some 8 ∧
    parse_episode_number "no_episode_here.mkv" = none := by
  refine ⟨?_, ?_, ?_, by decide, by decide, by decide, by decide⟩
  · intro s n h
    simp [parse_episode_number, h]
  · intro s n h1 h2
    simp [parse_episode_number, h1, h2]
  · intro s h1 h2
    simp [parse_episode_number, h1, h2]

/-- C4: a source directory whose final component contains a bracketed
section always parses to a strictly shorter (hence different)
`series_name`; therefore, for every file that `link_file_loop` processes
for such a directory, the `src_dir.name == series_name` test is false and
the destination name comes from the special/video-format branch, never
from the `"<series> SxxEyy"` episode branch — even when an episode number
was found in the file's name. -/
theorem c4_bracketed_dir_forces_special (dirName : String)
    (h : bracketSections dirName.data ≠ []) :
    (parse_file_name dirName).series_name.length < dirName.length ∧
    (parse_file_name dirName).series_name ≠ dirName ∧
    ∀ (season : Nat) (files : List String) (st : LinkStep),
      st ∈ link_file_loop (parse_file_name dirName).series_name season dirName files →
      st.dstName = specialFilename st.srcName := by
  have hlen : (parse_file_name dirName).series_name.length < dirName.length := by
    obtain ⟨first, rest, hbs⟩ : ∃ first rest,
        bracketSections dirName.data = first :: rest := by
      cases hb : bracketSections dirName.data with
      | nil => exact absurd hb h
      | cons a b => exact ⟨a, b, rfl⟩
    have hocc := bracketSections_head_occ dirName.data first rest hbs
    have h1 : (replaceAll ('[' :: (first ++ [']'])) [] dirName.data).length <
        dirName.data.length :=
      replaceAll_length_lt _ _ (by simp) hocc
    have h2 : (pfnInitName dirName.data).length < dirName.data.length := by
      unfold pfnInitName
      rw [hbs]
      exact lt_of_le_of_lt (length_pyStrip_le _) h1
    have h3 : ((pfnState dirName.data).name).length ≤ (pfnInitName dirName.data).length := by
      unfold pfnState
      exact foldl_step3_name_le _ _
    show (pyStrip (((pfnState dirName.data).name).dropWhile _)).length < dirName.data.length
    calc (pyStrip (((pfnState dirName.data).name).dropWhile _)).length
        ≤ (((pfnState dirName.data).name).dropWhile _).length := length_pyStrip_le _
      _ ≤ ((pfnState dirName.data).name).length := length_dropWhile_le _ _
      _ ≤ (pfnInitName dirName.data).length := h3
      _ < dirName.data.length := h2
  have hne : (parse_file_name dirName).series_name ≠ dirName := by
    intro heq
    rw [heq] at hlen
    exact lt_irrefl _ hlen
  refine ⟨hlen, hne, ?_⟩
  intro season files st hmem
  have hdst := mem_link_go_dst (parse_file_name dirName).series_name season dirName
    files [] st hmem
  rw [hdst]
  have hbeq : (dirName == (parse_file_name dirName).series_name) = false :=
    beq_eq_false_iff_ne.mpr (Ne.symm hne)
  cases hp : parse_episode_number st.srcName with
  | none =>
    unfold new_filename
    rw [hp, hbeq]
  | some ep =>
    unfold new_filename
    rw [hp, hbeq]

/-- C4 witness at the directory name `"[G] Show"`. -/
theorem c4_bracketed_dir_forces_special_witness :
    (parse_file_name "[G] Show").series_name.length < "[G] Show".length ∧
    (parse_file_name "[G] Show").series_name ≠ "[G] Show" ∧
    ∀ (season : Nat) (files : List String) (st : LinkStep),
      st ∈ link_file_loop (parse_file_name "[G] Show").series_name season "[G] Show" files →
      st.dstName = specialFilename st.srcName :=
  c4_bracketed_dir_forces_special "[G] Show" (by decide)

/-- C5: a name with no bracketed section parses to an empty release-group
list, an empty video-format list and no episode range, and its
`series_name` is the trimmed input — the input with the leading run of
dashes/whitespace removed and surrounding whitespace stripped, the
trimming the parser contract specifies; re-parsing the resulting
fully-stripped series name returns it unchanged. -/
theorem c5_no_brackets_trimmed_idempotent (nameS : String)
    (h : bracketSections nameS.data = []) :
    (parse_file_name nameS).subtitle_groups = [] ∧
    (parse_file_name nameS).video_format = [] ∧
    (parse_file_name nameS).episode_range = none ∧
    (parse_file_name nameS).series_name =
      String.mk (pyStrip (nameS.data.dropWhile (fun c => c == '-' || isPySpace c))) ∧
    (parse_file_name ((parse_file_name nameS).series_name)).series_name =
      (parse_file_name nameS).series_name := by
  have hstate := pfnState_no_brackets nameS.data h
  have hG : (parse_file_name nameS).subtitle_groups = [] := by
    show pfnGroups nameS.data = []
    unfold pfnGroups
    rw [h]
  have hV : (parse_file_name nameS).video_format = [] := by
    show ((pfnState nameS.data).video_format).map String.mk = []
    rw [hstate]
    rfl
  have hE : (parse_file_name nameS).episode_range = none := by
    show ((pfnState nameS.data).episode_range).map String.mk = none
    rw [hstate]
    rfl
  have hS : (parse_file_name nameS).series_name =
      String.mk (pyStrip (nameS.data.dropWhile (fun c => c == '-' || isPySpace c))) := by
    show String.mk (pyStrip (((pfnState nameS.data).name).dropWhile _)) = _
    rw [hstate]
  refine ⟨hG, hV, hE, hS, ?_⟩
  rw [hS]
  have hu1 : bracketSections
      (nameS.data.dropWhile (fun c => c == '-' || isPySpace c)) = [] := by
    obtain ⟨a, ha⟩ := dropWhile_append_self (fun c => c == '-' || isPySpace c) nameS.data
    exact bracketSections_nil_append_right a _ (ha ▸ h)
  have hvu : (nameS.data.dropWhile (fun c => c == '-' || isPySpace c)).dropWhile isPySpace
      = nameS.data.dropWhile (fun c => c == '-' || isPySpace c) := by
    cases hu : nameS.data.dropWhile (fun c => c == '-' || isPySpace c) with
    | nil => rfl
    | cons c w =>
      have hc : ((c == '-') || isPySpace c) = false :=
        head?_dropWhile_not _ nameS.data c (by rw [hu]; rfl)
      have hcs : isPySpace c = false := by
        have h' := hc
        simp at h'
        exact h'.2
      exact dropWhile_of_head_not isPySpace _ c rfl hcs
  have hpy : pyStrip (nameS.data.dropWhile (fun c => c == '-' || isPySpace c)) =
      dropTrailingWs (nameS.data.dropWhile (fun c => c == '-' || isPySpace c)) := by
    unfold pyStrip
    rw [hvu]
  obtain ⟨s, hs⟩ := dropTrailingWs_append_self
    (nameS.data.dropWhile (fun c => c == '-' || isPySpace c))
  have hbs_t : bracketSections
      (pyStrip (nameS.data.dropWhile (fun c => c == '-' || isPySpace c))) = [] := by
    rw [hpy]
    exact bracketSections_nil_append_left _ s (by rw [← hs]; exact hu1)
  cases ht : pyStrip (nameS.data.dropWhile (fun c => c == '-' || isPySpace c)) with
  | nil => decide
  | cons c w =>
    have hdtw : dropTrailingWs
        (nameS.data.dropWhile (fun c => c == '-' || isPySpace c)) = c :: w := by
      rw [← hpy]
      exact ht
    have hchead : (nameS.data.dropWhile (fun c => c == '-' || isPySpace c)).head? =
        some c := by
      rw [hs, hdtw]
      rfl
    have hc : ((c == '-') || isPySpace c) = false :=
      head?_dropWhile_not _ nameS.data c hchead
    have hcs : isPySpace c = false := by
      have h' := hc
      simp at h'
      exact h'.2
    have hbs2 : bracketSections (c :: w) = [] := by
      rw [← ht]
      exact hbs_t
    have hstate2 := pfnState_no_brackets (c :: w) hbs2
    show String.mk (pyStrip (((pfnState (String.mk (c :: w)).data).name).dropWhile _)) = _
    rw [show (String.mk (c :: w)).data = c :: w from rfl, hstate2]
    have hdp : (c :: w).dropWhile (fun c => c == '-' || isPySpace c) = c :: w :=
      dropWhile_of_head_not _ _ c rfl hc
    rw [hdp]
    have hdw : (c :: w).dropWhile isPySpace = c :: w :=
      dropWhile_of_head_not _ _ c rfl hcs
    have hdt : dropTrailingWs (c :: w) = c :: w := by
      rw [← hdtw, dropTrailingWs_idem]
    unfold pyStrip
    rw [hdw, hdt]

/-- C5 witness at the bracket-free name `"  -- My Show  "`, whose trimmed
series name `"My Show"` re-parses to itself. -/
theorem c5_no_brackets_trimmed_idempotent_witness :
    (parse_file_name "  -- My Show  ").subtitle_groups = [] ∧
    (parse_file_name "  -- My Show  ").video_format = [] ∧
    (parse_file_name "  -- My Show  ").episode_range = none ∧
    (parse_file_name "  -- My Show  ").series_name =
      String.mk (pyStrip (("  -- My Show  " : String).data.dropWhile
        (fun c => c == '-' || isPySpace c))) ∧
    (parse_file_name ((parse_file_name "  -- My Show  ").series_name)).series_name =
      (parse_file_name "  -- My Show  ").series_name :=
  c5_no_brackets_trimmed_idempotent "  -- My Show  " (by decide)

/-- C6: the spec's worked example
`"[GroupA&GroupB] Show Title [01-12][BDRip]"`. -/
theorem c6_worked_example :
    (parse_file_name "[GroupA&GroupB] Show Title [01-12][BDRip]").subtitle_groups =
      ["GroupA", "GroupB"] ∧
    (parse_file_name "[GroupA&GroupB] Show Title [01-12][BDRip]").episode_range =
      some "01-12" ∧
    (parse_file_name "[GroupA&GroupB] Show Title [01-12][BDRip]").video_format =
      ["BDRip"] ∧
    (parse_file_name "[GroupA&GroupB] Show Title [01-12][BDRip]").series_name =
      "Show Title" := by
  decide

/-- C7: `parse_season_number` tries "Season N", then the SxxExx pattern,
then the Japanese pattern, in that order, returns the first match's number
and defaults to 1 when none match; with the spec's three concrete
examples. -/
theorem c7_season_priority :
    (∀ (s : String) (n : Nat), searchAt seasonWordHere s.data = some n →
      parse_season_number s = n) ∧
    (∀ (s : String) (n : Nat), searchAt seasonWordHere s.data = none →
      searchAt seasonSHere s.data = some n → parse_season_number s = n) ∧
    (∀ (s : String) (n : Nat), searchAt seasonWordHere s.data = none →
      searchAt seasonSHere s.data = none → searchAt seasonJapHere s.data = some n →
      parse_season_number s = n) ∧
    (∀ s : String, searchAt seasonWordHere s.data = none →
      searchAt seasonSHere s.data = none → searchAt seasonJapHere s.data = none →
      parse_season_number s = 1) ∧
    parse_season_number "Series Name Season 2" = 2 ∧
    parse_season_number "Tower.of.God.S02E23.mkv" = 2 ∧
    parse_season_number "Regular Series" = 1 := by
  refine ⟨?_, ?_, ?_, ?_, by decide, by decide, by decide⟩
  · intro s n h
    simp [parse_season_number, h]
  · intro s n h1 h2
    simp [parse_season_number, h1, h2]
  · intro s n h1 h2 h3
    simp [parse_season_number, h1, h2, h3]
  · intro s h1 h2 h3
    simp [parse_season_number, h1, h2, h3]

/-- C8: whenever `extract_language_code` returns a code, the filename ends
in `.<code>.<ext>` for one of the five recognized subtitle extensions —
the language pattern only matches immediately before a recognized
subtitle extension at the end of the name; with the spec's two concrete
examples. -/
theorem c8_language_needs_subtitle_ext :
    (∀ (s code : String), extract_language_code s = some code →
      ∃ pre ext, ext ∈ (["ass", "srt", "vtt", "sub", "ssa"] : List String) ∧
        s.data = pre ++ ('.' :: code.data) ++ ('.' :: ext.data)) ∧
    extract_language_code "file.zh-TW.srt" = some "zh-TW" ∧
    extract_language_code "file.mp4" = none := by
  refine ⟨?_, by decide, by decide⟩
  intro s code h
  rw [extract_language_code] at h
  cases hsa : searchAt langHere s.data with
  | none => rw [hsa] at h; simp at h
  | some cs =>
    rw [hsa] at h
    simp at h
    obtain ⟨pre, suf, hsplit, hlang⟩ := searchAt_spec langHere s.data cs hsa
    obtain ⟨rem, hsuf, hx⟩ := langHere_spec suf cs hlang
    obtain ⟨ext, hmem, hrem⟩ := extOk_spec rem hx
    refine ⟨pre, ext, hmem, ?_⟩
    have hcode : code.data = cs := by rw [← h]
    rw [hsplit, hsuf, hrem, hcode]
    simp

/-- C9: in src/main.py the special-branch base name is total — an empty
re-parsed video-format list falls back to the fixed label `"NO_NAME"` —
but in the legacy variant src/extract.py the same branch indexes
`['video_format'][0]` with no fallback, so the bracket-free special file
`"plain.mkv"` (episode parse fails, empty tag list) raises an
`IndexError` there, modelled as `none`. -/
theorem c9_special_base_no_name :
    parse_episode_number_extract "plain.mkv" = none ∧
    extractSpBase "plain.mkv" = none ∧
    mainSpBase "plain.mkv" = "NO_NAME" ∧
    (∀ f : String, (parse_file_name f).video_format = [] → mainSpBase f = "NO_NAME") := by
  refine ⟨by decide, by decide, by decide, ?_⟩
  intro f hf
  unfold mainSpBase
  rw [hf]

/-- C10: the release-group list is empty exactly when the name has no
bracketed section — when a first section exists, splitting it on `&`
yields at least one group. -/
theorem c10_groups_empty_iff_no_brackets (nameS : String) :
    (parse_file_name nameS).subtitle_groups = [] ↔ bracketSections nameS.data = [] := by
  show pfnGroups nameS.data = [] ↔ _
  unfold pfnGroups
  cases hb : bracketSections nameS.data with
  | nil => simp
  | cons first rest =>
    constructor
    · intro hmap
      exfalso
      have hm : (splitAmp first).map (fun g => String.mk (pyStrip g)) = [] := hmap
      rw [List.map_eq_nil_iff] at hm
      exact splitAmp_ne_nil first hm
    · intro hcons
      simp at hcons

end BGM
